import Mathlib

/-!
Verification of the Rufus crawl engine and relevance pipeline.

This file gives a shallow embedding of the core of `rufus` (the files
`rufus/client.py` and `rufus/utils.py`) and proves properties of it.

External collaborators (the headless-browser renderer, the HTML parser,
the NLTK tokenizer and stop-word list, and the sentence-embedding model)
are modelled as function parameters, exactly as the specification treats
them: opaque oracles.  Everything with real control flow — the keyword
extractor, the relevance gate, the client constructor and the recursive
crawl with its budget checks — is translated from the Python source.
-/

namespace Rufus

/-! ## Keyword extractor (`utils.extract_keywords`) -/

/-- Python `str.isalpha`: non-empty and every character alphabetic. -/
def isAlphaStr (w : String) : Bool :=
  !w.isEmpty && w.data.all (fun c => c.isAlpha)

/-- The iteration order of a `collections.Counter` built from a token list:
the distinct tokens, in order of first occurrence (dict insertion order).
`seen` accumulates the keys already emitted. -/
def keysInOrderAux (seen : List String) : List String → List String
  | [] => []
  | w :: ws =>
    if w ∈ seen then keysInOrderAux seen ws
    else w :: keysInOrderAux (w :: seen) ws

def keysInOrder (l : List String) : List String :=
  keysInOrderAux [] l

/-- Model of `Counter(filtered)` as an association list in insertion order. -/
def wordCounts (filtered : List String) : List (String × Nat) :=
  (keysInOrder filtered).map (fun w => (w, filtered.count w))

/-- One step of the stable descending-by-count insertion used to model
`Counter.most_common` (CPython sorts the items with a stable sort,
descending by count, so ties keep insertion order). -/
def insertByCount (x : String × Nat) : List (String × Nat) → List (String × Nat)
  | [] => [x]
  | y :: ys => if y.2 ≤ x.2 then x :: y :: ys else y :: insertByCount x ys

/-- Stable sort, descending by count: the extensional behavior of
`sorted(items, key=itemgetter(1), reverse=True)`. -/
def sortByCountDesc : List (String × Nat) → List (String × Nat)
  | [] => []
  | x :: xs => insertByCount x (sortByCountDesc xs)

/-- Model of `Counter.most_common(k)`. -/
def mostCommon (counts : List (String × Nat)) (k : Nat) : List (String × Nat) :=
  (sortByCountDesc counts).take k

/-- The tokenization-and-filtering stage of `extract_keywords`:
`word_tokenize(instructions.lower())` filtered to the tokens that are
purely alphabetic and not stop words. -/
def filteredTokens (tokenize : String → List String) (stop_words : List String)
    (instructions : String) : List String :=
  (tokenize instructions.toLower).filter
    (fun w => isAlphaStr w && !(stop_words.contains w))

/-- Model of `utils.extract_keywords`.  `tokenize` stands for NLTK's
`word_tokenize` and `stop_words` for `stopwords.words('english')`;
both are external data the source merely consumes. -/
def extract_keywords (tokenize : String → List String) (stop_words : List String)
    (instructions : String) (num_keywords : Nat := 5) : List String :=
  let filtered := filteredTokens tokenize stop_words instructions
  let word_counts := wordCounts filtered
  (mostCommon word_counts num_keywords).map Prod.fst

/-! ## Relevance scorer (`utils.compute_similarity`) -/

/-- Boolean test that `n` is a (character-list) prefix of `h`. -/
def strPrefixOf : List Char → List Char → Bool
  | [], _ => true
  | _ :: _, [] => false
  | a :: as, b :: bs => a == b && strPrefixOf as bs

/-- Python's `needle in haystack` substring test on character lists. -/
def isSubstrOf (needle : List Char) : List Char → Bool
  | [] => needle.isEmpty
  | c :: rest => strPrefixOf needle (c :: rest) || isSubstrOf needle rest

/-- Specification-side notion: `needle` occurs contiguously in `haystack`. -/
def OccursIn (needle haystack : List Char) : Prop :=
  ∃ l r, haystack = l ++ needle ++ r

/-- Model of `utils.compute_similarity`.  `sim` is the opaque composite of
`model.encode` and `cosine_similarity`; it may fail (`Except.error`),
modelling the `try/except` in the source that returns `False` on any
embedding failure. -/
def compute_similarity (sim : String → String → Except String Rat)
    (content instructions : String) (keywords : List String) (threshold : Rat) : Bool :=
  match sim instructions content with
  | .error _ => false
  | .ok similarity =>
    let has_keywords :=
      if keywords.isEmpty then
        true
      else
        keywords.any (fun keyword => isSubstrOf keyword.toLower.data content.toLower.data)
    decide (threshold < similarity) && has_keywords

/-! ## Client constructor (`client.RufusClient.__init__`) -/

structure RufusClientState where
  api_key : String
  instructions : String
  keywords : List String
  max_depth : Int
  max_pages : Int
  similarity_threshold : Rat
deriving Repr, DecidableEq

/-- Model of `RufusClient._authenticate`: compares the key to `os.getenv('RUFUS_API_KEY')`
(`none` models an unset variable, which can never equal a string key). -/
def authenticate (env_api_key : Option String) (api_key : String) : Bool :=
  match env_api_key with
  | some expected => api_key == expected
  | none => false

/-- The keyword-resolution step of `__init__`: `if not self.keywords:` is
true for both `None` and an explicitly empty list, so both are replaced
by keywords extracted from the instructions. -/
def resolveKeywords (tokenize : String → List String) (stop_words : List String)
    (keywords : Option (List String)) (instructions : String) : List String :=
  match keywords with
  | none => extract_keywords tokenize stop_words instructions 5
  | some ks => if ks.isEmpty then extract_keywords tokenize stop_words instructions 5 else ks

/-- Model of `RufusClient.__init__`: stores the parameters, resolves keywords, then
authenticates; `Except.error` models the raised `ValueError`.  No other
validation is performed. -/
def RufusClient.init (tokenize : String → List String) (stop_words : List String)
    (env_api_key : Option String) (api_key instructions : String)
    (keywords : Option (List String)) (max_depth : Int) (max_pages : Int)
    (similarity_threshold : Rat) : Except String RufusClientState :=
  let kws := resolveKeywords tokenize stop_words keywords instructions
  if authenticate env_api_key api_key then
    .ok ⟨api_key, instructions, kws, max_depth, max_pages, similarity_threshold⟩
  else
    .error "Invalid API Key."

/-! ## Crawl engine (`client.RufusClient._crawl`)

The crawl is embedded as a small-step transition system over the
session state.  One `_crawl` coroutine is a `CrawlTask`; its atomic
blocks are delimited exactly by the source's suspension points
(`await _render_page`, `await asyncio.sleep`, `await asyncio.gather`):

* `.start` — the three budget checks and, if they pass, marking the URL
  visited and issuing the render (no `await` separates the membership
  check from `visited_urls.add`, so this whole block is atomic);
* `.work` — the continuation after the render: content extraction,
  scoring, conditional result append, link extraction, issuing the sleep;
* `.spawn links` — the continuation after the sleep: the budget-checked
  loop creating one child task per surviving link, then `gather`.

A schedule (an arbitrary list of task indices) chooses which in-flight
coroutine runs its next atomic block, covering every interleaving the
event loop could produce.  `renderLog` and `spawned` are ghost fields
recording each issued render and each spawned child task. -/

structure CrawlConfig where
  maxDepth : Int
  maxPages : Nat
  render : String → String
  extractContent : String → String
  isRelevant : String → Bool
  extractLinks : String → String → List String

inductive TaskPhase where
  | start : TaskPhase
  | work : TaskPhase
  | spawn : List String → TaskPhase
deriving DecidableEq, Repr

structure CrawlTask where
  url : String
  depth : Nat
  phase : TaskPhase
deriving DecidableEq, Repr

structure CrawlState where
  visited : List String
  results : List (String × String)
  tasks : List CrawlTask
  renderLog : List (String × Nat)
  spawned : Nat
deriving DecidableEq, Repr

/-- The `for link in links` loop at the bottom of `_crawl`: before each
child is created the page budget is re-checked, and the loop breaks as
soon as `len(visited_urls) >= max_pages`. -/
def spawnLinks (visitedCount maxPages : Nat) : List String → List String
  | [] => []
  | l :: ls =>
    if maxPages ≤ visitedCount then []
    else l :: spawnLinks visitedCount maxPages ls

/-- Run one atomic block of the task `t`, where the session's task list
is `pre ++ t :: post`. -/
def stepTask (cfg : CrawlConfig) (s : CrawlState) (pre post : List CrawlTask)
    (t : CrawlTask) : CrawlState :=
  match t.phase with
  | .start =>
    if cfg.maxDepth < (t.depth : Int) then { s with tasks := pre ++ post }
    else if t.url ∈ s.visited then { s with tasks := pre ++ post }
    else if cfg.maxPages ≤ s.visited.length then { s with tasks := pre ++ post }
    else
      { s with
        visited := s.visited ++ [t.url],
        renderLog := s.renderLog ++ [(t.url, t.depth)],
        tasks := pre ++ ({ t with phase := .work } :: post) }
  | .work =>
    let html := cfg.render t.url
    let content := cfg.extractContent html
    let links := cfg.extractLinks html t.url
    { s with
      results :=
        if content != "" && cfg.isRelevant content then
          s.results ++ [(t.url, content)]
        else s.results,
      tasks := pre ++ ({ t with phase := .spawn links } :: post) }
  | .spawn links =>
    let newLinks := spawnLinks s.visited.length cfg.maxPages links
    { s with
      tasks := (pre ++ post) ++ newLinks.map (fun l => ⟨l, t.depth + 1, .start⟩),
      spawned := s.spawned + newLinks.length }

/-- Run the atomic block of the `i`-th in-flight task (schedules naming a
non-existent task do nothing). -/
def stepAt (cfg : CrawlConfig) (s : CrawlState) (i : Nat) : CrawlState :=
  if h : i < s.tasks.length then
    stepTask cfg s (s.tasks.take i) (s.tasks.drop (i + 1)) s.tasks[i]
  else s

/-- Run the crawl under an arbitrary interleaving of the in-flight tasks. -/
def runCrawl (cfg : CrawlConfig) (s : CrawlState) : List Nat → CrawlState
  | [] => s
  | i :: sch => runCrawl cfg (stepAt cfg s i) sch

/-- The state `scrape` sets up: fresh visited set and result list, and a
single root coroutine for the seed at depth 0. -/
def initState (seed : String) : CrawlState :=
  ⟨[], [], [⟨seed, 0, .start⟩], [], 0⟩

/-- A task that has passed the checks (phase `.work`) owns its URL: it is
the unique coroutine that added that URL to the visited set and may
still append a result for it. -/
def taskOwner (t : CrawlTask) : Option String :=
  match t.phase with
  | .work => some t.url
  | _ => none

/-- URLs that occur in the result list or are owned by an in-flight
rendering task. -/
def owners (s : CrawlState) : List String :=
  s.results.map Prod.fst ++ s.tasks.filterMap taskOwner

/-- The session invariant maintained by every interleaving. -/
structure Inv (cfg : CrawlConfig) (s : CrawlState) : Prop where
  visited_nodup : s.visited.Nodup
  owners_nodup : (owners s).Nodup
  owners_sub : ∀ u ∈ owners s, u ∈ s.visited
  visited_le : s.visited.length ≤ cfg.maxPages
  renderLog_eq : s.renderLog.map Prod.fst = s.visited
  renderLog_depth : ∀ p ∈ s.renderLog, (p.2 : Int) ≤ cfg.maxDepth
  nonstart_mem : ∀ t ∈ s.tasks, t.phase ≠ .start → t.url ∈ s.visited
  nonstart_depth : ∀ t ∈ s.tasks, t.phase ≠ .start → (t.depth : Int) ≤ cfg.maxDepth

/-! ## Node-level model of the `try/except` in `_crawl` (error recovery)

`_render_page` has its own `try/except` around navigation
(`page.goto` / `wait_for_load_state` / `content`), which degrades to
empty HTML; but exceptions raised by the render call itself (for
example `browser.new_page()` on a dead browser) escape `_render_page`.
Inside `_crawl`, `html` is first assigned *inside* the `try:` block;
the `except` only logs, and control then reaches
`links = self._extract_links(html, url)` *outside* the `try`, which
raises `UnboundLocalError` when the render call itself raised. -/

inductive RenderResult where
  | ok (html : String)
  | navError
  | setupError
deriving DecidableEq, Repr

/-- Model of `RufusClient._render_page`: navigation failures are caught and give
`""`; failures in page setup propagate as an exception. -/
def renderPage : RenderResult → Except String String
  | .ok h => .ok h
  | .navError => .ok ""
  | .setupError => .error "render raised"

structure NodeOutcome where
  newResults : List (String × String)
  links : List String
deriving DecidableEq, Repr

/-- The body of `_crawl` for one node after the three checks: the
`try/except` around render + scoring, then link extraction.  `html?`
is the local variable `html`, unbound (`none`) when the assignment
`html = await self._render_page(url)` itself raised. -/
def crawlNodeBody (extractContent : String → String) (isRelevant : String → Bool)
    (extractLinks : String → String → List String)
    (url : String) (r : RenderResult) : Except String NodeOutcome :=
  let html? : Option String :=
    match renderPage r with
    | .ok h => some h
    | .error _ => none
  match html? with
  | none => .error "UnboundLocalError: local variable html"
  | some html =>
    let content := extractContent html
    let newResults :=
      if content != "" && isRelevant content then [(url, content)] else []
    .ok ⟨newResults, extractLinks html url⟩

/-! ## Lemmas: substring test -/

theorem strPrefixOf_iff (n : List Char) : ∀ h : List Char,
    strPrefixOf n h = true ↔ ∃ t, h = n ++ t := by
  induction n with
  | nil => intro h; simp [strPrefixOf]
  | cons a as ih =>
    intro h
    cases h with
    | nil => simp [strPrefixOf]
    | cons b bs =>
      simp only [strPrefixOf, Bool.and_eq_true, beq_iff_eq, ih, List.cons_append,
        List.cons.injEq]
      constructor
      · rintro ⟨rfl, t, rfl⟩
        exact ⟨t, rfl, rfl⟩
      · rintro ⟨t, rfl, rfl⟩
        exact ⟨rfl, t, rfl⟩

theorem isSubstrOf_iff (n : List Char) : ∀ h : List Char,
    isSubstrOf n h = true ↔ OccursIn n h := by
  intro h
  induction h with
  | nil =>
    constructor
    · intro hn
      have hn' : n = [] := by simpa [isSubstrOf, List.isEmpty_iff] using hn
      exact ⟨[], [], by simp [hn']⟩
    · rintro ⟨l, r, hl⟩
      have hn' : n = [] := by
        rcases List.append_eq_nil.mp hl.symm with ⟨h1, -⟩
        exact (List.append_eq_nil.mp h1).2
      simp [isSubstrOf, hn']
  | cons c rest ih =>
    simp only [isSubstrOf, Bool.or_eq_true, strPrefixOf_iff, ih, OccursIn]
    constructor
    · rintro (⟨t, ht⟩ | ⟨l, r, rfl⟩)
      · exact ⟨[], t, by simp [ht]⟩
      · exact ⟨c :: l, r, by simp⟩
    · rintro ⟨l, r, hl⟩
      cases l with
      | nil => exact Or.inl ⟨r, by simpa using hl⟩
      | cons x xs =>
        simp only [List.cons_append, List.cons.injEq] at hl
        exact Or.inr ⟨xs, r, hl.2⟩

/-! ## Claim theorems: relevance scorer -/

/-- C3: the relevance scorer accepts iff the similarity strictly exceeds
the threshold AND (the keyword list is empty OR some keyword occurs as
a case-insensitive substring of the content); with non-empty keywords,
high similarity alone is rejected; with empty keywords, acceptance is
exactly the similarity test. -/
theorem compute_similarity_spec (sim : String → String → Except String Rat)
    (content instructions : String) (keywords : List String) (threshold sval : Rat)
    (h : sim instructions content = Except.ok sval) :
    (compute_similarity sim content instructions keywords threshold = true ↔
      (threshold < sval ∧ (keywords = [] ∨
        ∃ kw ∈ keywords, OccursIn kw.toLower.data content.toLower.data)))
    ∧ (keywords ≠ [] →
        (∀ kw ∈ keywords, ¬ OccursIn kw.toLower.data content.toLower.data) →
        compute_similarity sim content instructions keywords threshold = false)
    ∧ (keywords = [] →
        (compute_similarity sim content instructions keywords threshold = true ↔
          threshold < sval)) := by
  have hmain : compute_similarity sim content instructions keywords threshold = true ↔
      (threshold < sval ∧ (keywords = [] ∨
        ∃ kw ∈ keywords, OccursIn kw.toLower.data content.toLower.data)) := by
    simp only [compute_similarity, h]
    cases hk : keywords.isEmpty with
    | true =>
      have hk' : keywords = [] := List.isEmpty_iff.mp hk
      simp [hk']
    | false =>
      have hk' : keywords ≠ [] := by
        intro hc
        rw [hc] at hk
        simp at hk
      simp [hk, hk', List.any_eq_true, isSubstrOf_iff]
  refine ⟨hmain, ?_, ?_⟩
  · intro hne hnone
    cases hcs : compute_similarity sim content instructions keywords threshold with
    | false => rfl
    | true =>
      exfalso
      rcases hmain.mp hcs with ⟨-, hor⟩
      rcases hor with hemp | ⟨kw, hkw, hocc⟩
      · exact hne hemp
      · exact hnone kw hkw hocc
  · intro hemp
    rw [hmain]
    simp [hemp]

/-- Witness for C3 at a concrete input: similarity 1 exceeds threshold 0
and the keyword list is empty, so the page is accepted. -/
theorem compute_similarity_spec_witness :
    compute_similarity (fun _ _ => Except.ok 1) "a" "b" [] 0 = true := by
  have h := compute_similarity_spec (fun _ _ => Except.ok 1) "a" "b" [] 0 1 rfl
  exact (h.2.2 rfl).mpr (by norm_num)

/-- C8: any failure obtaining embeddings makes the scorer return `false`
("not relevant") instead of propagating the exception. -/
theorem compute_similarity_error_false (sim : String → String → Except String Rat)
    (content instructions : String) (keywords : List String) (threshold : Rat)
    (e : String) (h : sim instructions content = Except.error e) :
    compute_similarity sim content instructions keywords threshold = false := by
  simp [compute_similarity, h]

/-- Witness for C8: a concrete embedding-service failure is scored as
not relevant. -/
theorem compute_similarity_error_false_witness :
    compute_similarity (fun _ _ => Except.error "embedding failure") "c" "i" ["k"] 0
      = false :=
  compute_similarity_error_false (fun _ _ => Except.error "embedding failure")
    "c" "i" ["k"] 0 "embedding failure" rfl

/-! ## Claim theorems: client constructor -/

/-- C4 counterexample: constructing the client with `max_depth = -1`,
`max_pages = 0` and `threshold = 2` — all violating the claimed
preconditions — succeeds (no configuration error is raised); the only
check the constructor makes is API-key authentication. -/
theorem init_no_precondition_check :
    RufusClient.init (fun _ => []) [] (some "k") "k" "instr" none (-1) 0 2
      = Except.ok ⟨"k", "instr", [], -1, 0, 2⟩ := by
  rfl

/-- C4 amended: the constructor succeeds exactly when the API key
authenticates, independently of `max_depth`, `max_pages` and
`similarity_threshold`, which are never validated. -/
theorem init_only_auth_check (tokenize : String → List String)
    (stop_words : List String) (env_api_key : Option String)
    (api_key instructions : String) (keywords : Option (List String))
    (max_depth max_pages : Int) (threshold : Rat) :
    (∃ st, RufusClient.init tokenize stop_words env_api_key api_key instructions
        keywords max_depth max_pages threshold = Except.ok st)
      ↔ authenticate env_api_key api_key = true := by
  simp only [RufusClient.init]
  cases h : authenticate env_api_key api_key <;> simp

/-- C10: an explicitly empty caller-supplied keyword list is replaced by
keywords extracted from the instructions, so it does not act as "no
keyword constraint" when the instructions yield at least one keyword. -/
theorem empty_keywords_replaced (tokenize : String → List String)
    (stop_words : List String) (instructions : String)
    (h : extract_keywords tokenize stop_words instructions 5 ≠ []) :
    resolveKeywords tokenize stop_words (some []) instructions
      = extract_keywords tokenize stop_words instructions 5
    ∧ resolveKeywords tokenize stop_words (some []) instructions ≠ [] := by
  refine ⟨rfl, ?_⟩
  simpa [resolveKeywords] using h

/-- Witness for C10: instructions tokenizing to two alphabetic content
words yield non-empty extracted keywords, which replace the empty list. -/
theorem empty_keywords_replaced_witness :
    resolveKeywords (fun _ => ["find", "documentation"]) [] (some []) "find documentation"
      = extract_keywords (fun _ => ["find", "documentation"]) [] "find documentation" 5
    ∧ resolveKeywords (fun _ => ["find", "documentation"]) [] (some [])
        "find documentation" ≠ [] :=
  empty_keywords_replaced (fun _ => ["find", "documentation"]) [] "find documentation"
    (by decide)

/-! ## Claim theorems: per-node error recovery -/

/-- C5 (code-bug evidence): when the render call itself raises (page
setup failure), the `except` block catches the exception but the local
`html` was never assigned, so the continuation at
`links = self._extract_links(html, url)` raises `UnboundLocalError`,
which escapes the node instead of the branch continuing with empty
content and links; a caught navigation failure, by contrast, is
recovered to empty content and empty links as the claim describes. -/
theorem crawl_node_render_raise_propagates :
    (∀ (extractContent : String → String) (isRelevant : String → Bool)
        (extractLinks : String → String → List String) (url : String),
      crawlNodeBody extractContent isRelevant extractLinks url RenderResult.setupError
        = Except.error "UnboundLocalError: local variable html")
    ∧ crawlNodeBody (fun h => h) (fun _ => true) (fun _ _ => []) "http://a"
        RenderResult.navError = Except.ok ⟨[], []⟩ :=
  ⟨fun _ _ _ _ => rfl, rfl⟩

/-! ## Lemmas: keyword extraction -/

theorem mem_keysInOrderAux (l : List String) : ∀ (seen : List String) (x : String),
    x ∈ keysInOrderAux seen l ↔ x ∈ l ∧ x ∉ seen := by
  induction l with
  | nil => intro seen x; simp [keysInOrderAux]
  | cons w ws ih =>
    intro seen x
    by_cases hw : w ∈ seen
    · simp only [keysInOrderAux, if_pos hw, ih, List.mem_cons]
      constructor
      · rintro ⟨h1, h2⟩
        exact ⟨Or.inr h1, h2⟩
      · rintro ⟨h1 | h1, h2⟩
        · subst h1; exact absurd hw h2
        · exact ⟨h1, h2⟩
    · simp only [keysInOrderAux, if_neg hw, List.mem_cons, ih]
      constructor
      · rintro (rfl | ⟨h1, h2⟩)
        · exact ⟨Or.inl rfl, hw⟩
        · push_neg at h2
          exact ⟨Or.inr h1, h2.2⟩
      · rintro ⟨h1 | h1, h2⟩
        · exact Or.inl h1
        · by_cases hxw : x = w
          · exact Or.inl hxw
          · exact Or.inr ⟨h1, by simp [hxw, h2]⟩

theorem mem_keysInOrder (l : List String) (x : String) :
    x ∈ keysInOrder l ↔ x ∈ l := by
  simp [keysInOrder, mem_keysInOrderAux]

theorem nodup_keysInOrderAux (l : List String) : ∀ seen, (keysInOrderAux seen l).Nodup := by
  induction l with
  | nil => intro seen; simp [keysInOrderAux]
  | cons w ws ih =>
    intro seen
    by_cases hw : w ∈ seen
    · simpa [keysInOrderAux, hw] using ih seen
    · simp only [keysInOrderAux, if_neg hw, List.nodup_cons]
      refine ⟨?_, ih (w :: seen)⟩
      rw [mem_keysInOrderAux]
      rintro ⟨-, h2⟩
      exact h2 (List.mem_cons_self w seen)

theorem nodup_keysInOrder (l : List String) : (keysInOrder l).Nodup :=
  nodup_keysInOrderAux l []

theorem wordCounts_map_fst (filtered : List String) :
    (wordCounts filtered).map Prod.fst = keysInOrder filtered := by
  simp [wordCounts, List.map_map, Function.comp_def]

theorem mem_wordCounts_snd (filtered : List String) (x : String × Nat)
    (hx : x ∈ wordCounts filtered) : x.2 = filtered.count x.1 := by
  simp only [wordCounts, List.mem_map] at hx
  obtain ⟨w, -, rfl⟩ := hx
  rfl

theorem insertByCount_perm (x : String × Nat) : ∀ l : List (String × Nat),
    List.Perm (insertByCount x l) (x :: l) := by
  intro l
  induction l with
  | nil => exact List.Perm.refl _
  | cons y ys ih =>
    simp only [insertByCount]
    split_ifs with h
    · exact List.Perm.refl _
    · exact (ih.cons y).trans (List.Perm.swap x y ys)

theorem sortByCountDesc_perm : ∀ l : List (String × Nat),
    List.Perm (sortByCountDesc l) l := by
  intro l
  induction l with
  | nil => exact List.Perm.refl _
  | cons x xs ih =>
    simp only [sortByCountDesc]
    exact (insertByCount_perm x (sortByCountDesc xs)).trans (ih.cons x)

theorem pairwise_insertByCount (x : String × Nat) (l : List (String × Nat))
    (h : l.Pairwise (fun a b => b.2 ≤ a.2)) :
    (insertByCount x l).Pairwise (fun a b => b.2 ≤ a.2) := by
  induction l with
  | nil => simp [insertByCount]
  | cons y ys ih =>
    rw [List.pairwise_cons] at h
    obtain ⟨hy, hys⟩ := h
    simp only [insertByCount]
    split_ifs with hle
    · rw [List.pairwise_cons]
      refine ⟨?_, ?_⟩
      · intro z hz
        rcases List.mem_cons.mp hz with rfl | hz'
        · exact hle
        · exact le_trans (hy z hz') hle
      · rw [List.pairwise_cons]
        exact ⟨hy, hys⟩
    · rw [List.pairwise_cons]
      refine ⟨?_, ih hys⟩
      intro z hz
      have hz' := (insertByCount_perm x ys).mem_iff.mp hz
      rcases List.mem_cons.mp hz' with rfl | hz''
      · exact le_of_not_le hle
      · exact hy z hz''

theorem pairwise_sortByCountDesc : ∀ l : List (String × Nat),
    (sortByCountDesc l).Pairwise (fun a b => b.2 ≤ a.2) := by
  intro l
  induction l with
  | nil => simp [sortByCountDesc]
  | cons x xs ih =>
    simp only [sortByCountDesc]
    exact pairwise_insertByCount x (sortByCountDesc xs) ih

theorem filter_insertByCount_of_ne (x : String × Nat) (p : String × Nat → Bool)
    (hx : p x = false) : ∀ l : List (String × Nat),
    (insertByCount x l).filter p = l.filter p := by
  intro l
  induction l with
  | nil => simp [insertByCount, hx]
  | cons y ys ih =>
    simp only [insertByCount]
    split_ifs with hle
    · simp [List.filter_cons, hx]
    · simp [List.filter_cons, ih]

theorem filter_insertByCount_self (x : String × Nat) : ∀ l : List (String × Nat),
    (insertByCount x l).filter (fun y => y.2 == x.2)
      = x :: l.filter (fun y => y.2 == x.2) := by
  intro l
  induction l with
  | nil => simp [insertByCount]
  | cons y ys ih =>
    simp only [insertByCount]
    split_ifs with hle
    · simp [List.filter_cons]
    · have hy : (y.2 == x.2) = false := by
        simp only [beq_eq_false_iff_ne, ne_eq]
        omega
      simp [List.filter_cons, hy, ih]

theorem filter_sortByCountDesc (c : Nat) : ∀ l : List (String × Nat),
    (sortByCountDesc l).filter (fun y => y.2 == c)
      = l.filter (fun y => y.2 == c) := by
  intro l
  induction l with
  | nil => simp [sortByCountDesc]
  | cons x xs ih =>
    simp only [sortByCountDesc]
    by_cases hx : x.2 = c
    · subst hx
      rw [filter_insertByCount_self x (sortByCountDesc xs), ih]
      simp [List.filter_cons]
    · have hx' : (x.2 == c) = false := by simp [hx]
      rw [filter_insertByCount_of_ne x _ hx', ih]
      simp [List.filter_cons, hx']

/-- C7: the keyword extractor lowercases and tokenizes the text, keeps
only purely alphabetic non-stop-word tokens, and returns exactly the
top-`num_keywords` distinct such tokens by descending frequency, ties
broken by first-occurrence order; if no qualifying token remains, it
returns `[]` rather than failing.  Besides the bound, distinctness,
qualification, descending order and per-frequency-class stability, the
selection is pinned down by: its length is exactly
`min num_keywords (number of distinct qualifying tokens)`; no excluded
qualifying token outranks an included one (maximality); and within each
frequency class the included tokens are an initial segment of the
first-occurrence-ordered keys of that class (exact tie-break). -/
theorem extract_keywords_spec (tokenize : String → List String)
    (stop_words : List String) (instructions : String) (k : Nat) :
    (extract_keywords tokenize stop_words instructions k).length ≤ k
    ∧ (extract_keywords tokenize stop_words instructions k).Nodup
    ∧ (∀ w ∈ extract_keywords tokenize stop_words instructions k,
        isAlphaStr w = true ∧ stop_words.contains w = false
          ∧ w ∈ tokenize instructions.toLower)
    ∧ List.Pairwise
        (fun a b => (filteredTokens tokenize stop_words instructions).count b
          ≤ (filteredTokens tokenize stop_words instructions).count a)
        (extract_keywords tokenize stop_words instructions k)
    ∧ (∀ c : Nat,
        List.Sublist
          ((extract_keywords tokenize stop_words instructions k).filter
            (fun w => (filteredTokens tokenize stop_words instructions).count w == c))
          ((keysInOrder (filteredTokens tokenize stop_words instructions)).filter
            (fun w => (filteredTokens tokenize stop_words instructions).count w == c)))
    ∧ (filteredTokens tokenize stop_words instructions = []
        → extract_keywords tokenize stop_words instructions k = [])
    ∧ (extract_keywords tokenize stop_words instructions k).length
        = min k (keysInOrder (filteredTokens tokenize stop_words instructions)).length
    ∧ (∀ w ∈ keysInOrder (filteredTokens tokenize stop_words instructions),
        w ∉ extract_keywords tokenize stop_words instructions k →
        ∀ u ∈ extract_keywords tokenize stop_words instructions k,
          (filteredTokens tokenize stop_words instructions).count w
            ≤ (filteredTokens tokenize stop_words instructions).count u)
    ∧ (∀ c : Nat, ∃ rest : List String,
        (keysInOrder (filteredTokens tokenize stop_words instructions)).filter
            (fun w => (filteredTokens tokenize stop_words instructions).count w == c)
          = (extract_keywords tokenize stop_words instructions k).filter
              (fun w => (filteredTokens tokenize stop_words instructions).count w == c)
            ++ rest) := by
  set filtered := filteredTokens tokenize stop_words instructions with hf
  set keys := keysInOrder filtered with hkeys
  set counts := wordCounts filtered with hcounts
  set sorted := sortByCountDesc counts with hsorted
  have hout : extract_keywords tokenize stop_words instructions k
      = (sorted.take k).map Prod.fst := rfl
  have hout2 : extract_keywords tokenize stop_words instructions k
      = (sorted.map Prod.fst).take k := by
    rw [hout, List.map_take]
  have hperm : List.Perm sorted counts := sortByCountDesc_perm counts
  have hmapfst : counts.map Prod.fst = keys := wordCounts_map_fst filtered
  have hkeysnodup : keys.Nodup := nodup_keysInOrder filtered
  have hpermfst : List.Perm (sorted.map Prod.fst) keys :=
    hmapfst ▸ hperm.map Prod.fst
  have hfstnodup : (sorted.map Prod.fst).Nodup := hpermfst.nodup_iff.mpr hkeysnodup
  have hsubmap : List.Sublist ((sorted.take k).map Prod.fst) (sorted.map Prod.fst) :=
    List.Sublist.map Prod.fst (List.take_sublist k sorted)
  have hp1 : sorted.Pairwise (fun a b => b.2 ≤ a.2) := pairwise_sortByCountDesc counts
  have hp2 : sorted.Pairwise
      (fun a b => filtered.count b.1 ≤ filtered.count a.1) := by
    refine hp1.imp_of_mem ?_
    intro a b ha hb hab
    rw [← mem_wordCounts_snd filtered a (hperm.mem_iff.mp ha),
      ← mem_wordCounts_snd filtered b (hperm.mem_iff.mp hb)]
    exact hab
  have hp3 : (sorted.map Prod.fst).Pairwise
      (fun a b => filtered.count b ≤ filtered.count a) :=
    List.pairwise_map.mpr hp2
  have hBall : ∀ c : Nat,
      (sorted.map Prod.fst).filter (fun w => filtered.count w == c)
        = keys.filter (fun w => filtered.count w == c) := by
    intro c
    have e1 : sorted.filter ((fun w => filtered.count w == c) ∘ Prod.fst)
        = sorted.filter (fun y => y.2 == c) := by
      refine List.filter_congr ?_
      intro x hx
      simp only [Function.comp]
      rw [mem_wordCounts_snd filtered x (hperm.mem_iff.mp hx)]
    have e2 : counts.filter (fun y => y.2 == c)
        = counts.filter ((fun w => filtered.count w == c) ∘ Prod.fst) := by
      refine List.filter_congr ?_
      intro x hx
      simp only [Function.comp]
      rw [mem_wordCounts_snd filtered x hx]
    rw [List.filter_map, e1, filter_sortByCountDesc c counts, e2,
      ← List.filter_map, hmapfst]
  refine ⟨?_, ?_, ?_, ?_, ?_, ?_, ?_, ?_, ?_⟩
  · rw [hout, List.length_map, List.length_take]
    exact min_le_left _ _
  · rw [hout]
    exact List.Nodup.sublist hsubmap hfstnodup
  · intro w hw
    rw [hout] at hw
    have hw2 : w ∈ sorted.map Prod.fst := hsubmap.subset hw
    have hw3 : w ∈ keys := hpermfst.mem_iff.mp hw2
    have hw4 : w ∈ filtered := (mem_keysInOrder filtered w).mp hw3
    rw [hf, filteredTokens, List.mem_filter] at hw4
    obtain ⟨htok, hpred⟩ := hw4
    simp only [Bool.and_eq_true, Bool.not_eq_true'] at hpred
    exact ⟨hpred.1, hpred.2, htok⟩
  · rw [hout]
    exact List.Pairwise.sublist hsubmap hp3
  · intro c
    have hA : List.Sublist
        (((sorted.take k).map Prod.fst).filter (fun w => filtered.count w == c))
        ((sorted.map Prod.fst).filter (fun w => filtered.count w == c)) :=
      List.Sublist.filter _ hsubmap
    rw [hout]
    rw [hBall c] at hA
    exact hA
  · intro hfe
    have hc0 : counts = [] := by
      rw [hcounts, hfe]
      rfl
    rw [hout, hsorted, hc0]
    simp [sortByCountDesc]
  · rw [hout, List.length_map, List.length_take]
    have hclen : counts.length = keys.length := by
      rw [hcounts, hkeys, wordCounts, List.length_map]
    rw [hperm.length_eq, hclen]
  · intro w hw hnotin u hu
    rw [hout2] at hnotin hu
    have hwS : w ∈ sorted.map Prod.fst := hpermfst.mem_iff.mpr hw
    have hsplit := List.take_append_drop k (sorted.map Prod.fst)
    have hw2 : w ∈ (sorted.map Prod.fst).take k ++ (sorted.map Prod.fst).drop k := by
      rw [hsplit]
      exact hwS
    have hwd : w ∈ (sorted.map Prod.fst).drop k := by
      rcases List.mem_append.mp hw2 with h' | h'
      · exact absurd h' hnotin
      · exact h'
    have hp4 : List.Pairwise (fun a b => filtered.count b ≤ filtered.count a)
        ((sorted.map Prod.fst).take k ++ (sorted.map Prod.fst).drop k) := by
      rw [hsplit]
      exact hp3
    obtain ⟨-, -, hcross⟩ := List.pairwise_append.mp hp4
    exact hcross u hu w hwd
  · intro c
    refine ⟨((sorted.map Prod.fst).drop k).filter
      (fun w => filtered.count w == c), ?_⟩
    rw [hout2, ← hBall c]
    conv_lhs => rw [← List.take_append_drop k (sorted.map Prod.fst)]
    rw [List.filter_append]

/-! ## Lemmas: crawl-session invariant -/

theorem taskOwner_start (url : String) (depth : Nat) :
    taskOwner ⟨url, depth, .start⟩ = none := rfl

theorem taskOwner_work (url : String) (depth : Nat) :
    taskOwner ⟨url, depth, .work⟩ = some url := rfl

theorem taskOwner_spawn (url : String) (depth : Nat) (links : List String) :
    taskOwner ⟨url, depth, .spawn links⟩ = none := rfl

theorem filterMap_owner_newTasks (d : Nat) (links : List String) :
    (links.map (fun l => CrawlTask.mk l d .start)).filterMap taskOwner = [] := by
  induction links with
  | nil => rfl
  | cons a as ih => simp [List.filterMap_cons, taskOwner_start, ih]

/-- Removing any in-flight task preserves the invariant. -/
theorem inv_removeTask (cfg : CrawlConfig) (s : CrawlState) (pre post : List CrawlTask)
    (t : CrawlTask) (hs : s.tasks = pre ++ t :: post) (h : Inv cfg s) :
    Inv cfg { s with tasks := pre ++ post } := by
  have hsub : List.Sublist (pre ++ post) s.tasks := by
    rw [hs]
    exact List.Sublist.append_left ((List.Sublist.refl post).cons t) pre
  have hosub : List.Sublist (owners { s with tasks := pre ++ post }) (owners s) := by
    simp only [owners]
    exact List.Sublist.append_left (List.Sublist.filterMap taskOwner hsub) _
  exact
    { visited_nodup := h.visited_nodup
      owners_nodup := List.Nodup.sublist hosub h.owners_nodup
      owners_sub := fun u hu => h.owners_sub u (hosub.subset hu)
      visited_le := h.visited_le
      renderLog_eq := h.renderLog_eq
      renderLog_depth := h.renderLog_depth
      nonstart_mem := fun t' ht' hph => h.nonstart_mem t' (hsub.subset ht') hph
      nonstart_depth := fun t' ht' hph => h.nonstart_depth t' (hsub.subset ht') hph }

/-- Each atomic block of each coroutine preserves the session invariant. -/
theorem inv_stepTask (cfg : CrawlConfig) (s : CrawlState) (pre post : List CrawlTask)
    (t : CrawlTask) (hs : s.tasks = pre ++ t :: post) (h : Inv cfg s) :
    Inv cfg (stepTask cfg s pre post t) := by
  obtain ⟨url, depth, phase⟩ := t
  cases phase with
  | start =>
    simp only [stepTask]
    split_ifs with hd hv hp
    · exact inv_removeTask cfg s pre post _ hs h
    · exact inv_removeTask cfg s pre post _ hs h
    · exact inv_removeTask cfg s pre post _ hs h
    · obtain ⟨h1, h2, h3, h4, h5, h6, h7, h8⟩ := h
      have hfm : s.tasks.filterMap taskOwner
          = pre.filterMap taskOwner ++ post.filterMap taskOwner := by
        simp [hs, List.filterMap_append, List.filterMap_cons, taskOwner_start]
      have hfm' : (pre ++ (⟨url, depth, .work⟩ : CrawlTask) :: post).filterMap taskOwner
          = pre.filterMap taskOwner ++ url :: post.filterMap taskOwner := by
        simp [List.filterMap_append, List.filterMap_cons, taskOwner_work]
      have hperm : List.Perm (owners { s with visited := s.visited ++ [url], renderLog := s.renderLog ++ [(url, depth)], tasks := pre ++ (⟨url, depth, .work⟩ : CrawlTask) :: post }) (url :: owners s) := by
        simp only [owners, hfm, hfm']
        exact (List.Perm.append_left _ List.perm_middle).trans List.perm_middle
      have hnotin : url ∉ owners s := fun hin => hv (h3 url hin)
      have hmem_pre : ∀ t'' ∈ pre, t'' ∈ s.tasks := by
        intro t'' h''
        rw [hs]
        exact List.mem_append.mpr (Or.inl h'')
      have hmem_post : ∀ t'' ∈ post, t'' ∈ s.tasks := by
        intro t'' h''
        rw [hs]
        exact List.mem_append.mpr (Or.inr (List.mem_cons_of_mem _ h''))
      refine ⟨?_, ?_, ?_, ?_, ?_, ?_, ?_, ?_⟩
      · rw [List.nodup_append]
        exact ⟨h1, List.nodup_singleton url,
          fun a ha hb => hv ((List.mem_singleton.mp hb) ▸ ha)⟩
      · exact hperm.nodup_iff.mpr (List.nodup_cons.mpr ⟨hnotin, h2⟩)
      · intro u hu
        rcases List.mem_cons.mp (hperm.mem_iff.mp hu) with rfl | hu'
        · exact List.mem_append.mpr (Or.inr (List.mem_singleton.mpr rfl))
        · exact List.mem_append.mpr (Or.inl (h3 u hu'))
      · rw [List.length_append, List.length_singleton]
        omega
      · rw [List.map_append, h5]
        rfl
      · intro p hp'
        rcases List.mem_append.mp hp' with hold | hnew
        · exact h6 p hold
        · rw [List.mem_singleton.mp hnew]
          exact not_lt.mp hd
      · intro t' ht' hph
        rcases List.mem_append.mp ht' with hpre | hrest
        · exact List.mem_append.mpr (Or.inl (h7 t' (hmem_pre t' hpre) hph))
        · rcases List.mem_cons.mp hrest with rfl | hpost
          · exact List.mem_append.mpr (Or.inr (List.mem_singleton.mpr rfl))
          · exact List.mem_append.mpr (Or.inl (h7 t' (hmem_post t' hpost) hph))
      · intro t' ht' hph
        rcases List.mem_append.mp ht' with hpre | hrest
        · exact h8 t' (hmem_pre t' hpre) hph
        · rcases List.mem_cons.mp hrest with rfl | hpost
          · exact not_lt.mp hd
          · exact h8 t' (hmem_post t' hpost) hph
  | work =>
    simp only [stepTask]
    obtain ⟨h1, h2, h3, h4, h5, h6, h7, h8⟩ := h
    have hmem_pre : ∀ t'' ∈ pre, t'' ∈ s.tasks := by
      intro t'' h''
      rw [hs]
      exact List.mem_append.mpr (Or.inl h'')
    have hmem_post : ∀ t'' ∈ post, t'' ∈ s.tasks := by
      intro t'' h''
      rw [hs]
      exact List.mem_append.mpr (Or.inr (List.mem_cons_of_mem _ h''))
    have hmemt : (⟨url, depth, .work⟩ : CrawlTask) ∈ s.tasks := by
      rw [hs]
      exact List.mem_append.mpr (Or.inr (List.mem_cons_self _ _))
    have hurl : url ∈ s.visited := h7 ⟨url, depth, .work⟩ hmemt (by simp)
    have hdep : (depth : Int) ≤ cfg.maxDepth := h8 ⟨url, depth, .work⟩ hmemt (by simp)
    have hfm : s.tasks.filterMap taskOwner
        = pre.filterMap taskOwner ++ url :: post.filterMap taskOwner := by
      simp [hs, List.filterMap_append, List.filterMap_cons, taskOwner_work]
    have hfm' : ∀ links : List String,
        (pre ++ (⟨url, depth, .spawn links⟩ : CrawlTask) :: post).filterMap taskOwner
          = pre.filterMap taskOwner ++ post.filterMap taskOwner := by
      intro links
      simp [List.filterMap_append, List.filterMap_cons, taskOwner_spawn]
    have hpold : List.Perm (owners s)
        (url :: (s.results.map Prod.fst
          ++ (pre.filterMap taskOwner ++ post.filterMap taskOwner))) := by
      simp only [owners, hfm]
      exact (List.Perm.append_left _ List.perm_middle).trans List.perm_middle
    split_ifs with hc
    · refine ⟨h1, ?_, ?_, h4, h5, h6, ?_, ?_⟩
      · refine (List.Perm.nodup_iff ?_).mpr (hpold.nodup_iff.mp h2)
        simp only [owners, hfm', List.map_append, List.map_cons, List.map_nil,
          List.singleton_append]
        rw [List.append_assoc, List.singleton_append]
        exact List.perm_middle
      · intro u hu
        have hu' : u ∈ url :: (s.results.map Prod.fst
            ++ (pre.filterMap taskOwner ++ post.filterMap taskOwner)) := by
          refine (List.Perm.mem_iff ?_).mp hu
          simp only [owners, hfm', List.map_append, List.map_cons, List.map_nil,
            List.singleton_append]
          rw [List.append_assoc, List.singleton_append]
          exact List.perm_middle
        exact h3 u (hpold.mem_iff.mpr hu')
      · intro t' ht' hph
        rcases List.mem_append.mp ht' with hpre | hrest
        · exact h7 t' (hmem_pre t' hpre) hph
        · rcases List.mem_cons.mp hrest with rfl | hpost
          · exact hurl
          · exact h7 t' (hmem_post t' hpost) hph
      · intro t' ht' hph
        rcases List.mem_append.mp ht' with hpre | hrest
        · exact h8 t' (hmem_pre t' hpre) hph
        · rcases List.mem_cons.mp hrest with rfl | hpost
          · exact hdep
          · exact h8 t' (hmem_post t' hpost) hph
    · have hosub : List.Sublist (owners { s with tasks := pre ++ (⟨url, depth, .spawn (cfg.extractLinks (cfg.render url) url)⟩ : CrawlTask) :: post }) (owners s) := by
        simp only [owners, hfm, hfm']
        exact List.Sublist.append_left
          (List.Sublist.append_left ((List.Sublist.refl _).cons url) _) _
      refine ⟨h1, List.Nodup.sublist hosub h2, fun u hu => h3 u (hosub.subset hu),
        h4, h5, h6, ?_, ?_⟩
      · intro t' ht' hph
        rcases List.mem_append.mp ht' with hpre | hrest
        · exact h7 t' (hmem_pre t' hpre) hph
        · rcases List.mem_cons.mp hrest with rfl | hpost
          · exact hurl
          · exact h7 t' (hmem_post t' hpost) hph
      · intro t' ht' hph
        rcases List.mem_append.mp ht' with hpre | hrest
        · exact h8 t' (hmem_pre t' hpre) hph
        · rcases List.mem_cons.mp hrest with rfl | hpost
          · exact hdep
          · exact h8 t' (hmem_post t' hpost) hph
  | spawn links =>
    simp only [stepTask]
    obtain ⟨h1, h2, h3, h4, h5, h6, h7, h8⟩ := h
    have hmem_pre : ∀ t'' ∈ pre, t'' ∈ s.tasks := by
      intro t'' h''
      rw [hs]
      exact List.mem_append.mpr (Or.inl h'')
    have hmem_post : ∀ t'' ∈ post, t'' ∈ s.tasks := by
      intro t'' h''
      rw [hs]
      exact List.mem_append.mpr (Or.inr (List.mem_cons_of_mem _ h''))
    have hfm : s.tasks.filterMap taskOwner
        = pre.filterMap taskOwner ++ post.filterMap taskOwner := by
      simp [hs, List.filterMap_append, List.filterMap_cons, taskOwner_spawn]
    have howners : owners { s with tasks := (pre ++ post) ++ (spawnLinks s.visited.length cfg.maxPages links).map (fun l => ⟨l, depth + 1, .start⟩), spawned := s.spawned + (spawnLinks s.visited.length cfg.maxPages links).length } = owners s := by
      simp only [owners, hfm, List.filterMap_append, filterMap_owner_newTasks,
        List.append_nil]
    refine ⟨h1, ?_, ?_, h4, h5, h6, ?_, ?_⟩
    · rw [howners]; exact h2
    · rw [howners]; exact h3
    · intro t' ht' hph
      rcases List.mem_append.mp ht' with hmain | hnew
      · rcases List.mem_append.mp hmain with hpre | hpost
        · exact h7 t' (hmem_pre t' hpre) hph
        · exact h7 t' (hmem_post t' hpost) hph
      · obtain ⟨l, -, rfl⟩ := List.mem_map.mp hnew
        exact absurd rfl hph
    · intro t' ht' hph
      rcases List.mem_append.mp ht' with hmain | hnew
      · rcases List.mem_append.mp hmain with hpre | hpost
        · exact h8 t' (hmem_pre t' hpre) hph
        · exact h8 t' (hmem_post t' hpost) hph
      · obtain ⟨l, -, rfl⟩ := List.mem_map.mp hnew
        exact absurd rfl hph

theorem inv_stepAt (cfg : CrawlConfig) (s : CrawlState) (i : Nat) (h : Inv cfg s) :
    Inv cfg (stepAt cfg s i) := by
  unfold stepAt
  split
  · next hlt =>
    refine inv_stepTask cfg s _ _ _ ?_ h
    conv_lhs => rw [← List.take_append_drop i s.tasks]
    rw [← List.getElem_cons_drop s.tasks i hlt]
  · exact h

theorem inv_runCrawl (cfg : CrawlConfig) (s : CrawlState) (sch : List Nat)
    (h : Inv cfg s) : Inv cfg (runCrawl cfg s sch) := by
  induction sch generalizing s with
  | nil => exact h
  | cons i rest ih => exact ih _ (inv_stepAt cfg s i h)

theorem inv_initState (cfg : CrawlConfig) (seed : String) :
    Inv cfg (initState seed) := by
  refine ⟨?_, ?_, ?_, ?_, ?_, ?_, ?_, ?_⟩ <;>
    simp [initState, owners, taskOwner_start, List.filterMap_cons]

/-! ## Claim theorems: crawl engine -/

/-- C1: in every interleaving of concurrently expanding sibling
coroutines, a URL enters the visited set at most once and appears at
most once among the results — the atomic check-then-mark before the
(suspending) render makes duplicates impossible. -/
theorem crawl_dedup (cfg : CrawlConfig) (seed : String) (sch : List Nat) :
    (runCrawl cfg (initState seed) sch).visited.Nodup
    ∧ ((runCrawl cfg (initState seed) sch).results.map Prod.fst).Nodup := by
  have h := inv_runCrawl cfg (initState seed) sch (inv_initState cfg seed)
  refine ⟨h.visited_nodup, ?_⟩
  have hnd := h.owners_nodup
  simp only [owners] at hnd
  exact (List.nodup_append.mp hnd).1

/-- C2: at every point of every interleaving (in particular at the end
of the crawl), the number of accumulated results is at most the number
of visited URLs, which is at most `max_pages`. -/
theorem crawl_budget (cfg : CrawlConfig) (seed : String) (sch : List Nat) :
    (runCrawl cfg (initState seed) sch).results.length
      ≤ (runCrawl cfg (initState seed) sch).visited.length
    ∧ (runCrawl cfg (initState seed) sch).visited.length ≤ cfg.maxPages := by
  have h := inv_runCrawl cfg (initState seed) sch (inv_initState cfg seed)
  refine ⟨?_, h.visited_le⟩
  have hsp : List.Subperm (owners (runCrawl cfg (initState seed) sch))
      (runCrawl cfg (initState seed) sch).visited :=
    List.Nodup.subperm h.owners_nodup (fun u hu => h.owners_sub u hu)
  have hlen1 : (owners (runCrawl cfg (initState seed) sch)).length
      ≤ (runCrawl cfg (initState seed) sch).visited.length :=
    hsp.length_le
  have hlen2 : (runCrawl cfg (initState seed) sch).results.length
      ≤ (owners (runCrawl cfg (initState seed) sch)).length := by
    simp only [owners, List.length_append, List.length_map]
    exact Nat.le_add_right _ _
  exact le_trans hlen2 hlen1

/-- C9: for every node, the three branch-termination checks (depth
exceeded, URL already visited, page budget reached) are evaluated, in
this order, before any other work; whichever applies first terminates
the branch with no side effect beyond dropping the task, and
consequently no node with depth greater than `max_depth` is ever
rendered in any interleaving. -/
theorem crawl_checks_and_depth (cfg : CrawlConfig) (s : CrawlState)
    (pre post : List CrawlTask) (t : CrawlTask) (seed : String) (sch : List Nat)
    (hstart : t.phase = .start)
    (hterm : cfg.maxDepth < (t.depth : Int) ∨ t.url ∈ s.visited
      ∨ cfg.maxPages ≤ s.visited.length) :
    stepTask cfg s pre post t = { s with tasks := pre ++ post }
    ∧ ∀ p ∈ (runCrawl cfg (initState seed) sch).renderLog,
        (p.2 : Int) ≤ cfg.maxDepth := by
  constructor
  · obtain ⟨url, depth, phase⟩ := t
    cases phase with
    | start =>
      simp only [stepTask]
      split_ifs with hd hv hp
      · rfl
      · rfl
      · rfl
      · exfalso
        rcases hterm with h' | h' | h'
        · exact hd h'
        · exact hv h'
        · exact hp h'
    | work => cases hstart
    | spawn links => cases hstart
  · exact fun p hp =>
      (inv_runCrawl cfg (initState seed) sch (inv_initState cfg seed)).renderLog_depth p hp

/-- Witness for C9: a concrete start-phase node whose depth exceeds a
negative `max_depth` is dropped with no other state change, and the
empty schedule renders nothing. -/
theorem crawl_checks_and_depth_witness :
    stepTask ⟨-1, 1, fun _ => "", fun _ => "", fun _ => false, fun _ _ => []⟩
        (initState "s") [] [] ⟨"u", 0, .start⟩
      = { initState "s" with tasks := ([] : List CrawlTask) ++ [] }
    ∧ ∀ p ∈ (runCrawl ⟨-1, 1, fun _ => "", fun _ => "", fun _ => false, fun _ _ => []⟩
        (initState "s") []).renderLog, (p.2 : Int) ≤ (-1 : Int) :=
  crawl_checks_and_depth ⟨-1, 1, fun _ => "", fun _ => "", fun _ => false, fun _ _ => []⟩
    (initState "s") [] [] ⟨"u", 0, .start⟩ "s" [] rfl (Or.inl (by decide))

/-! ## Lemmas: the `max_pages = 1` scenario (claim C6) -/

theorem spawnLinks_of_ge (count maxPages : Nat) (h : maxPages ≤ count)
    (links : List String) : spawnLinks count maxPages links = [] := by
  cases links with
  | nil => rfl
  | cons a as => simp [spawnLinks, h]

theorem singleton_decomp {α : Type} (l₁ l₂ : List α) (x a : α)
    (h : l₁ ++ x :: l₂ = [a]) : l₁ = [] ∧ x = a ∧ l₂ = [] := by
  cases l₁ with
  | nil => simp_all
  | cons b bs => simp_all

/-- One scheduler step preserves the `max_pages = 1` bookkeeping: no
child is ever spawned, and the only state with an empty visited set is
the initial one. -/
theorem step_single_page (cfg : CrawlConfig) (seed : String)
    (hpages : cfg.maxPages = 1) (hdepth : 0 ≤ cfg.maxDepth)
    (s : CrawlState) (i : Nat) (h1 : Inv cfg s) (h2 : s.spawned = 0)
    (h3 : s.visited = [] → s.tasks = [⟨seed, 0, .start⟩]) :
    (stepAt cfg s i).spawned = 0
    ∧ ((stepAt cfg s i).visited = [] → (stepAt cfg s i).tasks = [⟨seed, 0, .start⟩]) := by
  unfold stepAt
  split
  · next hlt =>
    have hdecomp : s.tasks = s.tasks.take i ++ s.tasks[i] :: s.tasks.drop (i + 1) := by
      conv_lhs => rw [← List.take_append_drop i s.tasks]
      rw [← List.getElem_cons_drop s.tasks i hlt]
    have hmemt : s.tasks[i] ∈ s.tasks := List.getElem_mem hlt
    rcases ht : s.tasks[i] with ⟨url, depth, phase⟩
    rw [ht] at hdecomp hmemt
    cases phase with
    | start =>
      simp only [stepTask]
      split_ifs with hd hv hp
      · refine ⟨h2, ?_⟩
        intro hve
        exfalso
        obtain ⟨-, hx, -⟩ := singleton_decomp _ _ _ _ (hdecomp.symm.trans (h3 hve))
        have : depth = 0 := by
          have := congrArg CrawlTask.depth hx
          simpa using this
        rw [this] at hd
        exact absurd hdepth (by simpa using hd)
      · refine ⟨h2, ?_⟩
        intro hve
        exfalso
        replace hve : s.visited = [] := hve
        rw [hve] at hv
        exact absurd hv (List.not_mem_nil url)
      · refine ⟨h2, ?_⟩
        intro hve
        exfalso
        replace hve : s.visited = [] := hve
        rw [hve, hpages] at hp
        simp at hp
      · refine ⟨h2, ?_⟩
        intro hve
        exfalso
        replace hve : s.visited ++ [url] = [] := hve
        simp at hve
    | work =>
      simp only [stepTask]
      refine ⟨h2, ?_⟩
      intro hve
      exfalso
      replace hve : s.visited = [] := hve
      obtain ⟨-, hx, -⟩ := singleton_decomp _ _ _ _ (hdecomp.symm.trans (h3 hve))
      have := congrArg CrawlTask.phase hx
      simp at this
    | spawn links =>
      simp only [stepTask]
      have hurl : url ∈ s.visited :=
        h1.nonstart_mem ⟨url, depth, .spawn links⟩ hmemt (by simp)
      have hne : s.visited ≠ [] := by
        intro hc
        rw [hc] at hurl
        exact absurd hurl (List.not_mem_nil url)
      have hge : cfg.maxPages ≤ s.visited.length := by
        rw [hpages]
        have := List.length_pos.mpr hne
        omega
      refine ⟨?_, ?_⟩
      · rw [spawnLinks_of_ge _ _ hge]
        simpa using h2
      · intro hve
        exfalso
        replace hve : s.visited = [] := hve
        exact hne hve
  · exact ⟨h2, h3⟩

/-- Running any schedule from a `max_pages = 1` session preserves the
bookkeeping of `step_single_page`. -/
theorem runCrawl_single_aux (cfg : CrawlConfig) (seed : String)
    (hpages : cfg.maxPages = 1) (hdepth : 0 ≤ cfg.maxDepth) :
    ∀ (sch : List Nat) (s : CrawlState), Inv cfg s → s.spawned = 0 →
      (s.visited = [] → s.tasks = [⟨seed, 0, .start⟩]) →
      Inv cfg (runCrawl cfg s sch) ∧ (runCrawl cfg s sch).spawned = 0
        ∧ ((runCrawl cfg s sch).visited = []
            → (runCrawl cfg s sch).tasks = [⟨seed, 0, .start⟩]) := by
  intro sch
  induction sch with
  | nil => exact fun s ha hb hc => ⟨ha, hb, hc⟩
  | cons i rest ih =>
    intro s ha hb hc
    obtain ⟨hb', hc'⟩ := step_single_page cfg seed hpages hdepth s i ha hb hc
    exact ih (stepAt cfg s i) (inv_stepAt cfg s i ha) hb' hc'

/-- C6: the page budget is re-checked before spawning each child and
spawning stops once the visited count reaches `max_pages`; with
`max_pages = 1`, in every interleaving at most one page is ever
rendered, no child expansion task is ever spawned, and a completed
crawl (no in-flight tasks) has rendered exactly one page. -/
theorem crawl_max_pages_one (cfg : CrawlConfig) (seed : String) (sch : List Nat)
    (hpages : cfg.maxPages = 1) (hdepth : 0 ≤ cfg.maxDepth) :
    (runCrawl cfg (initState seed) sch).renderLog.length ≤ 1
    ∧ (runCrawl cfg (initState seed) sch).spawned = 0
    ∧ ((runCrawl cfg (initState seed) sch).tasks = []
        → (runCrawl cfg (initState seed) sch).renderLog.length = 1) := by
  obtain ⟨hinv, hsp, hemp⟩ := runCrawl_single_aux cfg seed hpages hdepth sch
    (initState seed) (inv_initState cfg seed) rfl (fun _ => rfl)
  have hlen : (runCrawl cfg (initState seed) sch).renderLog.length
      = (runCrawl cfg (initState seed) sch).visited.length := by
    rw [← hinv.renderLog_eq, List.length_map]
  have hle := hinv.visited_le
  rw [hpages] at hle
  refine ⟨?_, hsp, ?_⟩
  · rw [hlen]
    exact hle
  · intro htasks
    have hne : (runCrawl cfg (initState seed) sch).visited ≠ [] := by
      intro hve
      have hcontr := hemp hve
      rw [htasks] at hcontr
      simp at hcontr
    have hpos : 1 ≤ (runCrawl cfg (initState seed) sch).visited.length :=
      List.length_pos.mpr hne
    rw [hlen]
    omega

/-- Witness for C6: a concrete config with `max_pages = 1` whose seed
page has two discoverable links, run to completion. -/
theorem crawl_max_pages_one_witness :
    (runCrawl ⟨5, 1, fun _ => "html", fun h => h, fun _ => true, fun _ _ => ["l1", "l2"]⟩
        (initState "seed") [0, 0, 0]).renderLog.length ≤ 1
    ∧ (runCrawl ⟨5, 1, fun _ => "html", fun h => h, fun _ => true, fun _ _ => ["l1", "l2"]⟩
        (initState "seed") [0, 0, 0]).spawned = 0
    ∧ ((runCrawl ⟨5, 1, fun _ => "html", fun h => h, fun _ => true, fun _ _ => ["l1", "l2"]⟩
          (initState "seed") [0, 0, 0]).tasks = []
        → (runCrawl ⟨5, 1, fun _ => "html", fun h => h, fun _ => true, fun _ _ => ["l1", "l2"]⟩
            (initState "seed") [0, 0, 0]).renderLog.length = 1) :=
  crawl_max_pages_one
    ⟨5, 1, fun _ => "html", fun h => h, fun _ => true, fun _ _ => ["l1", "l2"]⟩
    "seed" [0, 0, 0] rfl (by decide)

end Rufus
